import Mathlib

/-!
Shallow embedding of the hf-go repository's quantization-extraction core
(`hfmodels.go`) and of the pure conversion logic of `internal/api/client.go`.

Strings are modelled as `List Char`.  Case mapping (`strings.ToUpper`,
`strings.ToLower` and the case-insensitive regexp flag `(?i)`) is modelled
on the ASCII range, which is the range the recognized quantization syntax
lives in; this matches `Char.toUpper`/`Char.toLower`.

The Go regular expressions of `ExtractQuantsFromSiblings` are embedded as
deterministic scanners.  Each pattern starts with the character class
`[._-]`, so every match of a whole pattern begins at a separator
character; leftmost-first matching is modelled by scanning positions left
to right (`findSep`).  Inside a pattern, every greedy repetition
(`[0-9]+`, `[A-Z0-9_]+`) is followed by a character outside its class
(`_`, `-` or `.`), so the maximal run is the only possible extent and no
backtracking is observable; the alternation `F16|F32|BF16` and the option
`(?:UD-)?` are tried in the regexp's preference order.
-/

namespace HFGo

/-- Go `strings.ToLower` (ASCII range). -/
def toLowerStr (s : List Char) : List Char := s.map Char.toLower

/-- Go `strings.ToUpper` (ASCII range). -/
def toUpperStr (s : List Char) : List Char := s.map Char.toUpper

/-- The separator class `[._-]` that opens every filename pattern. -/
def sepChar (c : Char) : Bool := c = '.' || c = '_' || c = '-'

/-- The character class `[A-Z0-9_]` under the case-insensitive flag,
i.e. ASCII letters, digits and underscore. -/
def isAlnumU (c : Char) : Bool := c.isUpper || c.isLower || c.isDigit || c = '_'

/-- Go `strings.HasSuffix(strings.ToLower(filename), ".gguf")`. -/
def hasSuffixGguf (s : List Char) : Bool :=
  List.isSuffixOf ((".gguf").toList) (toLowerStr s)

/-- The literal `\.gguf` at the current position (case-insensitive, not
anchored to the end of the string). -/
def startsGguf (s : List Char) : Bool :=
  List.isPrefixOf ((".gguf").toList) (toLowerStr s)

/-- Submatcher for `[0-9]+_[A-Z0-9_]+` : returns the consumed text and the rest.  The
greedy digit run must be followed by `_` and the greedy alphanumeric run
is maximal, exactly as the Go regexp engine resolves these patterns. -/
def matchNumUnd (l : List Char) : Option (List Char × List Char) :=
  let ds := l.takeWhile Char.isDigit
  let r1 := l.dropWhile Char.isDigit
  if ds.isEmpty then none else
  match r1 with
  | '_' :: r2 =>
    let al := r2.takeWhile isAlnumU
    let r3 := r2.dropWhile isAlnumU
    if al.isEmpty then none else some (ds ++ '_' :: al, r3)
  | _ => none

/-- Case-insensitive literal match of `alt` at the head of `l`; the
captured text keeps the source casing. -/
def matchAlt (alt : List Char) (l : List Char) : Option (List Char × List Char) :=
  if toUpperStr (l.take alt.length) = alt then some (l.take alt.length, l.drop alt.length)
  else none

/-- Body of `(?i)[._-](Q[0-9]+_[A-Z0-9_]+)` followed by the continuation
`cont` (either `\.gguf` or the split-file suffix), starting just after the
separator. -/
def bodyQgen (cont : List Char → Bool) (l : List Char) : Option (List Char) :=
  match l with
  | c :: rest =>
    if c.toUpper = 'Q' then
      match matchNumUnd rest with
      | some (cap, r) => if cont r then some (c :: cap) else none
      | none => none
    else none
  | [] => none

/-- Body of `(?i)[._-](IQ[0-9]+_[A-Z0-9_]+)` followed by `cont`. -/
def bodyIQgen (cont : List Char → Bool) (l : List Char) : Option (List Char) :=
  match l with
  | c1 :: c2 :: rest =>
    if c1.toUpper = 'I' ∧ c2.toUpper = 'Q' then
      match matchNumUnd rest with
      | some (cap, r) => if cont r then some (c1 :: c2 :: cap) else none
      | none => none
    else none
  | _ => none

/-- One alternative of `(F16|F32|BF16)` followed by `cont`. -/
def altCont (alt : List Char) (cont : List Char → Bool) (l : List Char) : Option (List Char) :=
  match matchAlt alt l with
  | some (cap, r) => if cont r then some cap else none
  | none => none

/-- Body of `(?i)[._-](F16|F32|BF16)` followed by `cont`; alternatives in
the regexp's order. -/
def bodyFgen (cont : List Char → Bool) (l : List Char) : Option (List Char) :=
  (altCont (("F16").toList) cont l).orElse fun _ =>
    (altCont (("F32").toList) cont l).orElse fun _ =>
      altCont (("BF16").toList) cont l

/-- Submatcher for `TQ[0-9]+_[0-9]+` : returns the consumed text and the rest. -/
def matchTQ (l : List Char) : Option (List Char × List Char) :=
  match l with
  | c1 :: c2 :: rest =>
    if c1.toUpper = 'T' ∧ c2.toUpper = 'Q' then
      let ds := rest.takeWhile Char.isDigit
      let r1 := rest.dropWhile Char.isDigit
      if ds.isEmpty then none else
      match r1 with
      | '_' :: r2 =>
        let ds2 := r2.takeWhile Char.isDigit
        let r3 := r2.dropWhile Char.isDigit
        if ds2.isEmpty then none else some (c1 :: c2 :: ds ++ '_' :: ds2, r3)
      | _ => none
    else none
  | _ => none

/-- Body of `(?i)[._-]((?:UD-)?TQ[0-9]+_[0-9]+)\.gguf`: the optional
`UD-` prefix is greedy, falling back to the bare `TQ` branch. -/
def bodyUD (l : List Char) : Option (List Char) :=
  (match matchAlt (("UD-").toList) l with
   | some (cap, r) =>
     match matchTQ r with
     | some (cap2, r2) => if startsGguf r2 then some (cap ++ cap2) else none
     | none => none
   | none => none).orElse fun _ =>
    match matchTQ l with
    | some (cap2, r2) => if startsGguf r2 then some cap2 else none
    | none => none

/-- The split-file continuation `-\d+-of-\d+\.gguf`. -/
def splitSuffix (l : List Char) : Bool :=
  match l with
  | '-' :: r1 =>
    let ds := r1.takeWhile Char.isDigit
    let r2 := r1.dropWhile Char.isDigit
    if ds.isEmpty then false else
    match r2 with
    | c1 :: c2 :: c3 :: r3 =>
      if c1 = '-' ∧ c2.toUpper = 'O' ∧ c3.toUpper = 'F' then
        match r3 with
        | '-' :: r4 =>
          let ds2 := r4.takeWhile Char.isDigit
          let r5 := r4.dropWhile Char.isDigit
          if ds2.isEmpty then false else startsGguf r5
        | _ => false
      else false
    | _ => false
  | _ => false

/-- Leftmost-first search: every pattern opens with the class `[._-]`,
so a whole-pattern match begins at a separator; positions are tried left
to right and the body runs just after the separator. -/
def findSep (body : List Char → Option (List Char)) : List Char → Option (List Char)
  | [] => none
  | c :: rest =>
    if sepChar c then
      match body rest with
      | some cap => some cap
      | none => findSep body rest
    else findSep body rest

/-- The ordered pattern table `quantPatterns` of
`ExtractQuantsFromSiblings`, one body per compiled regexp. -/
def quantPatterns : List (List Char → Option (List Char)) :=
  [bodyQgen startsGguf, bodyIQgen startsGguf, bodyFgen startsGguf, bodyUD,
   bodyQgen splitSuffix, bodyIQgen splitSuffix, bodyFgen splitSuffix]

/-- The pattern loop: first pattern (in table order) with a match supplies
the label, upper-cased (`strings.ToUpper(matches[1])`). -/
def firstPatternMatch : List (List Char → Option (List Char)) → List Char → Option (List Char)
  | [], _ => none
  | p :: ps, s =>
    match findSep p s with
    | some cap => some (toUpperStr cap)
    | none => firstPatternMatch ps s

/-- Pattern `dirQuantPattern = (?i)^([A-Z0-9_]+)/` : anchored at the start, the
capture is the maximal alphanumeric/underscore run, which must be
followed by `/`; the capture keeps the source casing. -/
def dirQuantCapture (s : List Char) : Option (List Char) :=
  let seg := s.takeWhile isAlnumU
  let r := s.dropWhile isAlnumU
  if seg.isEmpty then none else
  match r with
  | '/' :: _ => some seg
  | _ => none

/-- The recognized quantization family prefixes. -/
def quantPrefixes : List (List Char) :=
  [("Q").toList, ("IQ").toList, ("F16").toList, ("F32").toList,
   ("BF16").toList, ("TQ").toList]

/-- Function `isQuantName` from `hfmodels.go`: the upper-cased string must begin
with one of the family prefixes. -/
def isQuantName (s : List Char) : Bool :=
  quantPrefixes.any fun p => List.isPrefixOf p (toUpperStr s)

/-- Record `Sibling` : a file entry of a model repository. -/
structure Sibling where
  RFilename : List Char
deriving DecidableEq

/-- The per-filename body of the extraction loop: `none` models the empty
`quant` left by an unrecognized filename.  The directory heuristic is
tried first; only when it produces no quant-looking segment are the
filename patterns consulted. -/
def extractQuant (filename : List Char) : Option (List Char) :=
  if hasSuffixGguf filename then
    match dirQuantCapture filename with
    | some seg =>
      if isQuantName seg then some seg else firstPatternMatch quantPatterns filename
    | none => firstPatternMatch quantPatterns filename
  else none

/-- The accumulation loop of `ExtractQuantsFromSiblings`: `seen` is the
set of labels already appended (in the source, the map `seen` and the
slice `quants` grow in lockstep). -/
def extractLoop (seen : List (List Char)) : List Sibling → List (List Char)
  | [] => []
  | s :: rest =>
    match extractQuant s.RFilename with
    | some q => if q ∈ seen then extractLoop seen rest else q :: extractLoop (q :: seen) rest
    | none => extractLoop seen rest

/-- Function `ExtractQuantsFromSiblings` from `hfmodels.go`. -/
def ExtractQuantsFromSiblings (siblings : List Sibling) : List (List Char) :=
  extractLoop [] siblings

/-- First-occurrence deduplication: keep an element only the first time it
is seen (given the labels already in `seen`).  This is the order-and-
duplicate policy of the source's `seen` map. -/
def dedupFirst (seen : List (List Char)) : List (List Char) → List (List Char)
  | [] => []
  | q :: l => if q ∈ seen then dedupFirst seen l else q :: dedupFirst (q :: seen) l

/-- A marker of shape `Q<digits>_<alnum/underscore...>` (case-insensitive
`Q`), the shape denoted by the capture group of the first filename
pattern. -/
def QMarkerShape (m : List Char) : Prop :=
  ∃ c ds r, m = c :: (ds ++ '_' :: r) ∧ c.toUpper = 'Q' ∧
    ds ≠ [] ∧ (∀ a ∈ ds, Char.isDigit a = true) ∧
    r ≠ [] ∧ (∀ a ∈ r, isAlnumU a = true)

/-- A decoded Go `interface{}` value, as produced by `encoding/json`:
`nil`, `bool`, `float64`, `string`, `[]interface{}` or
`map[string]interface{}`.  The numeric payload is modelled as an integer;
no code under study inspects it. -/
inductive GoVal where
  | nullV : GoVal
  | boolV : Bool → GoVal
  | numV : Int → GoVal
  | strV : List Char → GoVal
  | arrV : List GoVal → GoVal
  | objV : List (List Char × GoVal) → GoVal

/-- Record `CardData` from `hfmodels.go`; `BaseModel` and `License` are decoded
`interface{}` fields that may be a string or a list. -/
structure CardData where
  ModelName : List Char
  ModelType : List Char
  BaseModel : GoVal
  License : GoVal
  QuantizedBy : List Char

/-- Method `CardData.GetBaseModel`: the runtime type switch of the source. -/
def CardData.GetBaseModel (c : CardData) : List Char :=
  match c.BaseModel with
  | GoVal.strV v => v
  | GoVal.arrV v =>
    match v with
    | GoVal.strV s :: _ => s
    | _ => []
  | _ => []

/-- Method `CardData.GetLicense`: the runtime type switch of the source. -/
def CardData.GetLicense (c : CardData) : List Char :=
  match c.License with
  | GoVal.strV v => v
  | GoVal.arrV v =>
    match v with
    | GoVal.strV s :: _ => s
    | _ => []
  | _ => []

/-- The spec's proposed tagged variant for a card field that is either a
single string or a list of strings.  Modelled from the spec: `Single(string)
| Multiple([string])`. -/
inductive CardField where
  | Single : List Char → CardField
  | Multiple : List (List Char) → CardField

/-- Modelled from the spec: the accessor returning the first element
regardless of variant (empty when nothing is there). -/
def CardField.firstValue : CardField → List Char
  | CardField.Single s => s
  | CardField.Multiple [] => []
  | CardField.Multiple (s :: _) => s

/-- Relation selecting the `interface` values representable by the spec's tagged variant:
a single string, or a list all of whose elements are strings. -/
def representsField : GoVal → CardField → Prop
  | GoVal.strV s, CardField.Single t => s = t
  | GoVal.arrV l, CardField.Multiple m => l = m.map GoVal.strV
  | _, _ => False

/-- Record `apiModel` from `internal/api/client.go`: the raw API record.
`LastModified` (a `time.Time`) is modelled as an opaque tick and
`TrendingScore` (a `float64`) as an opaque numeric payload; neither is
inspected by the conversion. -/
structure apiModel where
  ID : List Char
  Downloads : Int
  Likes : Int
  LastModified : Int
  LibraryName : List Char
  PipelineTag : List Char
  Private : Bool
  Gated : GoVal
  TrendingScore : Int

/-- Record `models.Model` from `internal/models/model.go` (fields touched by the
conversion). -/
structure Model where
  ID : List Char
  Author : List Char
  Downloads : Int
  Likes : Int
  LastModified : Int
  LibraryName : List Char
  PipelineTag : List Char
  Private : Bool
  Gated : Bool
  TrendingScore : Int

/-- The per-record conversion of `Client.ListModels` (the loop body over
`apiModels`): author is the text before the first `/` when the ID has
one, and the raw `gated` value collapses to a boolean via the source's
type switch. -/
def convertModel (am : apiModel) : Model :=
  let author := if '/' ∈ am.ID then am.ID.takeWhile (fun c => c ≠ '/') else []
  let gated :=
    match am.Gated with
    | GoVal.boolV b => b
    | GoVal.strV s => decide (s ≠ [] ∧ s ≠ ("false").toList)
    | _ => false
  { ID := am.ID, Author := author, Downloads := am.Downloads, Likes := am.Likes,
    LastModified := am.LastModified, LibraryName := am.LibraryName,
    PipelineTag := am.PipelineTag, Private := am.Private, Gated := gated,
    TrendingScore := am.TrendingScore }

/-! ### Helper lemmas -/

theorem toNat_ofNat_valid (n : Nat) (h : n.isValidChar) : (Char.ofNat n).toNat = n := by
  simp [Char.ofNat, h, Char.ofNatAux, Char.toNat, UInt32.toNat]

theorem toUpper_idem (c : Char) : c.toUpper.toUpper = c.toUpper := by
  simp only [Char.toUpper]
  by_cases h : c.toNat ≥ 97 ∧ c.toNat ≤ 122
  · rw [if_pos h]
    have hv : (c.toNat - 32).isValidChar := by
      constructor; omega
    rw [toNat_ofNat_valid _ hv, if_neg (by omega)]
  · rw [if_neg h, if_neg h]

theorem toUpperStr_idem (s : List Char) : toUpperStr (toUpperStr s) = toUpperStr s := by
  simp only [toUpperStr, List.map_map]
  exact List.map_congr_left fun a _ => toUpper_idem a

theorem takeWhile_app {α : Type} (p : α → Bool) (l₁ l₂ : List α) (b : α)
    (h1 : ∀ a ∈ l₁, p a = true) (h2 : p b = false) :
    (l₁ ++ b :: l₂).takeWhile p = l₁ := by
  induction l₁ with
  | nil => simp [List.takeWhile_cons, h2]
  | cons a l ih =>
    have ha : p a = true := h1 a (by simp)
    rw [List.cons_append, List.takeWhile_cons_of_pos ha, ih fun x hx => h1 x (by simp [hx])]

theorem dropWhile_app {α : Type} (p : α → Bool) (l₁ l₂ : List α) (b : α)
    (h1 : ∀ a ∈ l₁, p a = true) (h2 : p b = false) :
    (l₁ ++ b :: l₂).dropWhile p = b :: l₂ := by
  induction l₁ with
  | nil => simp [List.dropWhile_cons, h2]
  | cons a l ih =>
    have ha : p a = true := h1 a (by simp)
    rw [List.cons_append, List.dropWhile_cons_of_pos ha, ih fun x hx => h1 x (by simp [hx])]

theorem findSep_append (body : List Char → Option (List Char)) (p t : List Char)
    (h : ∀ c ∈ p, sepChar c = false) :
    findSep body (p ++ t) = findSep body t := by
  induction p with
  | nil => rfl
  | cons c l ih =>
    have hc : sepChar c = false := h c (by simp)
    simp only [List.cons_append, findSep, hc, Bool.false_eq_true, if_false]
    exact ih fun x hx => h x (by simp [hx])

theorem dirQuantCapture_eq_none (s : List Char) (h : '/' ∉ s) :
    dirQuantCapture s = none := by
  unfold dirQuantCapture
  by_cases hseg : (s.takeWhile isAlnumU).isEmpty
  · simp [hseg]
  · simp only [hseg, Bool.false_eq_true, if_false]
    cases hr : s.dropWhile isAlnumU with
    | nil => simp
    | cons a t =>
      by_cases ha : a = '/'
      · exfalso
        apply h
        have : a ∈ s.dropWhile isAlnumU := by rw [hr]; simp
        subst ha
        exact (List.dropWhile_sublist isAlnumU).subset this
      · cases a
        simp_all [ha]

theorem firstPatternMatch_shape (ps : List (List Char → Option (List Char)))
    (s q : List Char) (h : firstPatternMatch ps s = some q) :
    ∃ cap, q = toUpperStr cap := by
  induction ps with
  | nil => simp [firstPatternMatch] at h
  | cons p rest ih =>
    simp only [firstPatternMatch] at h
    cases hf : findSep p s with
    | some cap => rw [hf] at h; exact ⟨cap, (Option.some_inj.mp h).symm⟩
    | none => rw [hf] at h; exact ih h

theorem extractQuant_upper_or_dir (f q : List Char) (h : extractQuant f = some q) :
    q = toUpperStr q ∨ dirQuantCapture f = some q := by
  unfold extractQuant at h
  by_cases hg : hasSuffixGguf f
  · rw [if_pos hg] at h
    cases hd : dirQuantCapture f with
    | some seg =>
      simp only [hd] at h
      by_cases hq : isQuantName seg
      · rw [if_pos hq] at h
        right
        exact h
      · rw [if_neg hq] at h
        obtain ⟨cap, hc⟩ := firstPatternMatch_shape _ _ _ h
        left; rw [hc, toUpperStr_idem]
    | none =>
      simp only [hd] at h
      obtain ⟨cap, hc⟩ := firstPatternMatch_shape _ _ _ h
      left; rw [hc, toUpperStr_idem]
  · rw [if_neg hg] at h
    exact absurd h (by simp)

theorem extractQuant_eq_none_of_not_gguf (f : List Char) (h : hasSuffixGguf f = false) :
    extractQuant f = none := by
  simp [extractQuant, h]

theorem extractLoop_eq_dedupFirst (l : List Sibling) :
    ∀ seen, extractLoop seen l = dedupFirst seen (l.filterMap fun s => extractQuant s.RFilename) := by
  induction l with
  | nil => intro seen; rfl
  | cons s rest ih =>
    intro seen
    cases hq : extractQuant s.RFilename with
    | none => simp [extractLoop, hq, List.filterMap_cons, ih]
    | some q =>
      by_cases hmem : q ∈ seen
      · simp [extractLoop, hq, hmem, List.filterMap_cons, dedupFirst, ih]
      · simp [extractLoop, hq, hmem, List.filterMap_cons, dedupFirst, ih]

theorem extractLoop_nodup (l : List Sibling) :
    ∀ seen, (extractLoop seen l).Nodup ∧ ∀ q ∈ extractLoop seen l, q ∉ seen := by
  induction l with
  | nil => intro seen; simp [extractLoop]
  | cons s rest ih =>
    intro seen
    cases hq : extractQuant s.RFilename with
    | none => simpa [extractLoop, hq] using ih seen
    | some q =>
      by_cases hmem : q ∈ seen
      · simpa [extractLoop, hq, hmem] using ih seen
      · obtain ⟨h1, h2⟩ := ih (q :: seen)
        simp only [extractLoop, hq, hmem, if_false]
        refine ⟨List.nodup_cons.mpr ⟨fun hc => (h2 _ hc) (by simp), h1⟩, ?_⟩
        intro x hx
        rcases List.mem_cons.mp hx with hx | hx
        · rw [hx]; exact hmem
        · intro hxs
          exact (h2 _ hx) (by simp [hxs])

theorem extractLoop_mem_source (l : List Sibling) :
    ∀ seen q, q ∈ extractLoop seen l → ∃ s ∈ l, extractQuant s.RFilename = some q := by
  induction l with
  | nil => intro seen q h; simp [extractLoop] at h
  | cons s rest ih =>
    intro seen q h
    cases hq : extractQuant s.RFilename with
    | none =>
      simp only [extractLoop, hq] at h
      obtain ⟨s', hs', hq'⟩ := ih seen q h
      exact ⟨s', by simp [hs'], hq'⟩
    | some q' =>
      simp only [extractLoop, hq] at h
      by_cases hmem : q' ∈ seen
      · rw [if_pos hmem] at h
        obtain ⟨s', hs', hq'⟩ := ih seen q h
        exact ⟨s', by simp [hs'], hq'⟩
      · rw [if_neg hmem] at h
        rcases List.mem_cons.mp h with hqq | h
        · exact ⟨s, by simp, by rw [hq, hqq]⟩
        · obtain ⟨s', hs', hq'⟩ := ih _ q h
          exact ⟨s', by simp [hs'], hq'⟩

theorem extractLoop_filter_gguf (l : List Sibling) :
    ∀ seen, extractLoop seen l = extractLoop seen (l.filter fun s => hasSuffixGguf s.RFilename) := by
  induction l with
  | nil => intro seen; rfl
  | cons s rest ih =>
    intro seen
    by_cases hg : hasSuffixGguf s.RFilename
    · simp only [List.filter_cons, hg, if_true, extractLoop]
      cases hq : extractQuant s.RFilename with
      | none => exact ih seen
      | some q =>
        by_cases hmem : q ∈ seen
        · simp [hmem, ih]
        · simp [hmem, ih]
    · have hq : extractQuant s.RFilename = none :=
        extractQuant_eq_none_of_not_gguf _ (by simpa using hg)
      simp only [List.filter_cons, hg, extractLoop, hq]
      exact ih seen

theorem hasSuffixGguf_append (x : List Char) :
    hasSuffixGguf (x ++ (".gguf").toList) = true := by
  unfold hasSuffixGguf toLowerStr
  rw [List.map_append, (by decide : List.map Char.toLower ((".gguf").toList) = (".gguf").toList)]
  simp

theorem bodyQgen_marker (c : Char) (ds r : List Char)
    (hc : c.toUpper = 'Q') (hds : ds ≠ []) (hdig : ∀ a ∈ ds, Char.isDigit a = true)
    (hr : r ≠ []) (hal : ∀ a ∈ r, isAlnumU a = true) :
    bodyQgen startsGguf ((c :: (ds ++ '_' :: r)) ++ (".gguf").toList)
      = some (c :: (ds ++ '_' :: r)) := by
  have hgg : (".gguf").toList = '.' :: ("gguf").toList := rfl
  have h1 : ((ds ++ '_' :: r) ++ (".gguf").toList).takeWhile Char.isDigit = ds := by
    rw [List.append_assoc, List.cons_append]
    exact takeWhile_app _ _ _ _ hdig (by decide)
  have h2 : ((ds ++ '_' :: r) ++ (".gguf").toList).dropWhile Char.isDigit
      = '_' :: (r ++ (".gguf").toList) := by
    rw [List.append_assoc, List.cons_append]
    exact dropWhile_app _ _ _ _ hdig (by decide)
  have h3 : (r ++ (".gguf").toList).takeWhile isAlnumU = r := by
    rw [hgg]
    exact takeWhile_app _ _ _ _ hal (by decide)
  have h4 : (r ++ (".gguf").toList).dropWhile isAlnumU = (".gguf").toList := by
    rw [hgg]
    exact dropWhile_app _ _ _ _ hal (by decide)
  obtain ⟨d, ds', rfl⟩ : ∃ d ds', ds = d :: ds' := by
    cases ds with
    | nil => exact absurd rfl hds
    | cons d ds' => exact ⟨d, ds', rfl⟩
  obtain ⟨a, r', rfl⟩ : ∃ a r', r = a :: r' := by
    cases r with
    | nil => exact absurd rfl hr
    | cons a r' => exact ⟨a, r', rfl⟩
  simp only [List.cons_append] at h1 h2 h3 h4 ⊢
  simp only [bodyQgen, hc, if_true, matchNumUnd, h1, h2, h3, h4, List.isEmpty_cons]
  simp only [List.cons_append]
  simp
  decide

/-! ### Claim theorems -/

/-- C1 (counterexample): the claim "every returned label equals its own
upper-casing, including labels from the directory heuristic" is false:
on the single filename `bf16/m.gguf` the extractor returns the label
`bf16` as captured, which differs from its upper-casing `BF16`. -/
theorem C1_counterexample :
    ExtractQuantsFromSiblings [⟨("bf16/m.gguf").toList⟩] = [("bf16").toList] ∧
    ("bf16").toList ≠ toUpperStr (("bf16").toList) := by
  exact ⟨by decide, by decide⟩

/-- C1 (amended): every label returned by `ExtractQuantsFromSiblings` is
upper-case (equals its own upper-casing) unless it was obtained from the
directory heuristic, in which case it is the directory capture stored
verbatim with the directory's own casing. -/
theorem C1_amended (siblings : List Sibling) (q : List Char)
    (h : q ∈ ExtractQuantsFromSiblings siblings) :
    q = toUpperStr q ∨ ∃ s ∈ siblings, dirQuantCapture s.RFilename = some q := by
  obtain ⟨s, hs, hq⟩ := extractLoop_mem_source _ _ _ h
  rcases extractQuant_upper_or_dir _ _ hq with h1 | h1
  · exact Or.inl h1
  · exact Or.inr ⟨s, hs, h1⟩

/-- C1 (witness): the amended theorem applied to a concrete input whose
label comes from a filename pattern. -/
theorem C1_amended_witness :
    ("Q4_K_M").toList = toUpperStr (("Q4_K_M").toList) ∨
    ∃ s ∈ [Sibling.mk (("model-Q4_K_M.gguf").toList)],
      dirQuantCapture s.RFilename = some (("Q4_K_M").toList) :=
  C1_amended [Sibling.mk (("model-Q4_K_M.gguf").toList)] (("Q4_K_M").toList) (by decide)

/-- C2 (counterexample): the claim "no two returned entries are byte-equal
after upper-casing" is false: the two directory-labelled files `bf16/a.gguf`
and `BF16/b.gguf` produce the two distinct labels `bf16` and `BF16`, which
are byte-equal after normalization to upper case. -/
theorem C2_counterexample :
    ExtractQuantsFromSiblings [⟨("bf16/a.gguf").toList⟩, ⟨("BF16/b.gguf").toList⟩]
      = [("bf16").toList, ("BF16").toList] ∧
    toUpperStr (("bf16").toList) = toUpperStr (("BF16").toList) ∧
    ("bf16").toList ≠ ("BF16").toList := by
  exact ⟨by decide, by decide, by decide⟩

/-- C2 (amended): the returned list contains no two entries that are
byte-equal exactly (deduplication is by exact string equality, not by
upper-cased equality), and when the same exact label is produced by
several filenames only the first occurrence in input order is kept:
the result is the first-occurrence deduplication of the per-filename
labels. -/
theorem C2_amended (siblings : List Sibling) :
    (ExtractQuantsFromSiblings siblings).Nodup ∧
    ExtractQuantsFromSiblings siblings
      = dedupFirst [] (siblings.filterMap fun s => extractQuant s.RFilename) :=
  ⟨(extractLoop_nodup siblings []).1, extractLoop_eq_dedupFirst siblings []⟩

/-- C3 (counterexample): the claim that the `Q<digits>_<alnums>` marker is
recognized "whether or not" a `.`/`_`/`-` separator precedes it is false:
in `Q4_K_M.gguf` the marker `Q4_K_M` immediately precedes `.gguf` with no
separator before it, and the extractor returns nothing. -/
theorem C3_counterexample :
    ExtractQuantsFromSiblings [⟨("Q4_K_M.gguf").toList⟩] = [] ∧
    QMarkerShape (("Q4_K_M").toList) := by
  refine ⟨by decide, 'Q', ('4') :: [], ("K_M").toList, by decide, by decide, by decide,
    by decide, by decide, by decide⟩

/-- C3 (amended): the separator is mandatory, not optional: when a marker
of shape `Q<digits>_<alnums>` immediately precedes `.gguf` and is preceded
by a `.`, `_` or `-` separator — with no other separator or `/` occurring
earlier in the filename, which pins the leftmost match to this marker —
the filename's label is the upper-cased marker. -/
theorem C3_amended (p m : List Char) (sep : Char)
    (hsep : sepChar sep = true)
    (hm : QMarkerShape m)
    (hp : ∀ x ∈ p, sepChar x = false ∧ x ≠ '/') :
    ExtractQuantsFromSiblings [⟨p ++ sep :: (m ++ (".gguf").toList)⟩] = [toUpperStr m] := by
  obtain ⟨c, ds, r, rfl, hc, hds, hdig, hr, hal⟩ := hm
  have hsuf : hasSuffixGguf (p ++ sep :: ((c :: (ds ++ '_' :: r)) ++ (".gguf").toList)) = true := by
    have he : p ++ sep :: ((c :: (ds ++ '_' :: r)) ++ (".gguf").toList)
        = (p ++ sep :: (c :: (ds ++ '_' :: r))) ++ (".gguf").toList := by simp
    rw [he]
    exact hasSuffixGguf_append _
  have hns : '/' ∉ p ++ sep :: ((c :: (ds ++ '_' :: r)) ++ (".gguf").toList) := by
    intro hmem
    rcases List.mem_append.mp hmem with h | h
    · exact (hp _ h).2 rfl
    · rcases List.mem_cons.mp h with h | h
      · exact absurd hsep (by rw [← h]; decide)
      · rcases List.mem_append.mp h with h | h
        · rcases List.mem_cons.mp h with h | h
          · exact absurd hc (by rw [← h]; decide)
          · rcases List.mem_append.mp h with h | h
            · exact absurd (hdig _ h) (by decide)
            · rcases List.mem_cons.mp h with h | h
              · exact absurd h (by decide)
              · exact absurd (hal _ h) (by decide)
        · exact absurd h (by decide)
  have hdir := dirQuantCapture_eq_none _ hns
  have hbody := bodyQgen_marker c ds r hc hds hdig hr hal
  have hfind : findSep (bodyQgen startsGguf)
      (p ++ sep :: ((c :: (ds ++ '_' :: r)) ++ (".gguf").toList))
      = some (c :: (ds ++ '_' :: r)) := by
    rw [findSep_append _ p _ fun x hx => (hp x hx).1]
    simp only [findSep, hsep, if_true, hbody]
  have hfpm : firstPatternMatch quantPatterns
      (p ++ sep :: ((c :: (ds ++ '_' :: r)) ++ (".gguf").toList))
      = some (toUpperStr (c :: (ds ++ '_' :: r))) := by
    simp only [quantPatterns, firstPatternMatch, hfind]
  show extractLoop [] _ = _
  simp only [extractLoop, extractQuant, hsuf, if_true, hdir, hfpm]
  simp [extractLoop]

/-- C3 (witness): the amended theorem applied at `model-Q4_K_M.gguf`. -/
theorem C3_amended_witness :
    ExtractQuantsFromSiblings [⟨("model").toList ++ '-' :: (("Q4_K_M").toList ++ (".gguf").toList)⟩]
      = [toUpperStr (("Q4_K_M").toList)] :=
  C3_amended (("model").toList) (("Q4_K_M").toList) '-' (by decide)
    ⟨'Q', ('4') :: [], ("K_M").toList, by decide, by decide, by decide, by decide,
      by decide, by decide⟩ (by decide)

/-- C4 (counterexample): the claim that a quant-prefixed leading path
segment becomes the label "regardless of which other characters the
segment contains" is false: the segment `Q4-K` upper-cases to a string
beginning with `Q`, yet `Q4-K/model.gguf` yields no label at all, because
the directory pattern only matches a segment made of letters, digits and
underscores. -/
theorem C4_counterexample :
    ExtractQuantsFromSiblings [⟨("Q4-K/model.gguf").toList⟩] = [] ∧
    isQuantName (("Q4-K").toList) = true := by
  exact ⟨by decide, by decide⟩

/-- C4 (amended): when the leading path segment consists entirely of
letters, digits and underscores and, upper-cased, begins with one of the
recognized prefixes (`isQuantName`), that segment becomes the filename's
label as captured, and the filename-shape patterns are never consulted —
whatever the rest of the path contains. -/
theorem C4_amended (seg rest : List Char)
    (h0 : seg ≠ [])
    (h1 : ∀ x ∈ seg, isAlnumU x = true)
    (h2 : isQuantName seg = true)
    (h3 : hasSuffixGguf (seg ++ '/' :: rest) = true) :
    ExtractQuantsFromSiblings [⟨seg ++ '/' :: rest⟩] = [seg] := by
  have htw : (seg ++ '/' :: rest).takeWhile isAlnumU = seg :=
    takeWhile_app isAlnumU seg rest '/' h1 (by decide)
  have hdw : (seg ++ '/' :: rest).dropWhile isAlnumU = '/' :: rest :=
    dropWhile_app isAlnumU seg rest '/' h1 (by decide)
  have hdir : dirQuantCapture (seg ++ '/' :: rest) = some seg := by
    obtain ⟨a, s, rfl⟩ : ∃ a s, seg = a :: s := by
      cases seg with
      | nil => exact absurd rfl h0
      | cons a s => exact ⟨a, s, rfl⟩
    simp only [dirQuantCapture, htw, hdw, List.isEmpty_cons]
    simp
  show extractLoop [] _ = _
  simp only [extractLoop, extractQuant, h3, if_true, hdir, h2]
  simp [extractLoop]

/-- C4 (witness): the amended theorem applied at `BF16/model-Q4_K_M.gguf`:
the directory label wins even though the rest of the path carries its own
Q-pattern. -/
theorem C4_amended_witness :
    ExtractQuantsFromSiblings [⟨("BF16").toList ++ '/' :: ("model-Q4_K_M.gguf").toList⟩]
      = [("BF16").toList] :=
  C4_amended (("BF16").toList) (("model-Q4_K_M.gguf").toList) (by decide) (by decide)
    (by decide) (by decide)

/-- C5: on the single filename `BF16/model-Q4_K_M-00001-of-00005.gguf` the
extractor returns exactly `["BF16"]`: the quant-named directory takes
precedence over the filename's own Q-pattern. -/
theorem C5_directory_precedence :
    ExtractQuantsFromSiblings [⟨("BF16/model-Q4_K_M-00001-of-00005.gguf").toList⟩]
      = [("BF16").toList] := by decide

/-- C6: filenames not ending (case-insensitively) in `.gguf` contribute
nothing: the extractor returns the same result on the subsequence of
filenames with that suffix. -/
theorem C6_non_gguf_contribute_nothing (siblings : List Sibling) :
    ExtractQuantsFromSiblings siblings
      = ExtractQuantsFromSiblings (siblings.filter fun s => hasSuffixGguf s.RFilename) :=
  extractLoop_filter_gguf siblings []

/-- C7: on `["readme.md", "model-Q4_K_M.gguf", "model-Q8_0.gguf"]` the
extractor returns exactly `["Q4_K_M", "Q8_0"]`, preserving first-seen
order and ignoring the non-`.gguf` entry. -/
theorem C7_mixed_list :
    ExtractQuantsFromSiblings
      [⟨("readme.md").toList⟩, ⟨("model-Q4_K_M.gguf").toList⟩, ⟨("model-Q8_0.gguf").toList⟩]
      = [("Q4_K_M").toList, ("Q8_0").toList] := by decide

/-- C8: the extractor is total — it is a plain function on filename
sequences — and an input with no recognizable marker (in particular, one
with no `.gguf` file) yields the empty list rather than any failure. -/
theorem C8_total_empty_on_unrecognized (siblings : List Sibling)
    (h : ∀ s ∈ siblings, extractQuant s.RFilename = none) :
    ExtractQuantsFromSiblings siblings = [] := by
  show extractLoop [] _ = _
  induction siblings with
  | nil => rfl
  | cons s rest ih =>
    simp only [extractLoop, h s (by simp)]
    exact ih fun x hx => h x (by simp [hx])

/-- C8 (witness): the theorem applied to an input with no `.gguf` file. -/
theorem C8_witness :
    ExtractQuantsFromSiblings [Sibling.mk (("readme.md").toList)] = [] :=
  C8_total_empty_on_unrecognized [Sibling.mk (("readme.md").toList)] (by decide)

/-- C9: `GetBaseModel` (and likewise `GetLicense`) returns the field's
value when it is a single string, the first element when it is a
non-empty list whose first element is a string, and the empty string in
every other case; on fields representable by the spec's tagged variant
(`Single` / `Multiple`) this coincides with the first-element accessor,
preserving the "first wins" semantic. -/
theorem C9_card_fields_first_wins (c : CardData) :
    (∀ s, c.BaseModel = GoVal.strV s → c.GetBaseModel = s) ∧
    (∀ s rest, c.BaseModel = GoVal.arrV (GoVal.strV s :: rest) → c.GetBaseModel = s) ∧
    ((∀ s, c.BaseModel ≠ GoVal.strV s) →
      (∀ s rest, c.BaseModel ≠ GoVal.arrV (GoVal.strV s :: rest)) → c.GetBaseModel = []) ∧
    (∀ v, representsField c.BaseModel v → c.GetBaseModel = v.firstValue) ∧
    (∀ s, c.License = GoVal.strV s → c.GetLicense = s) ∧
    (∀ s rest, c.License = GoVal.arrV (GoVal.strV s :: rest) → c.GetLicense = s) ∧
    ((∀ s, c.License ≠ GoVal.strV s) →
      (∀ s rest, c.License ≠ GoVal.arrV (GoVal.strV s :: rest)) → c.GetLicense = []) ∧
    (∀ v, representsField c.License v → c.GetLicense = v.firstValue) := by
  refine ⟨?_, ?_, ?_, ?_, ?_, ?_, ?_, ?_⟩
  · intro s hs
    simp [CardData.GetBaseModel, hs]
  · intro s rest hs
    simp [CardData.GetBaseModel, hs]
  · intro hns hna
    cases hb : c.BaseModel with
    | strV s => exact absurd hb (hns s)
    | arrV v =>
      cases v with
      | nil => simp [CardData.GetBaseModel, hb]
      | cons g l =>
        cases g with
        | strV s => exact absurd hb (hna s l)
        | nullV => simp [CardData.GetBaseModel, hb]
        | boolV b => simp [CardData.GetBaseModel, hb]
        | numV n => simp [CardData.GetBaseModel, hb]
        | arrV w => simp [CardData.GetBaseModel, hb]
        | objV w => simp [CardData.GetBaseModel, hb]
    | nullV => simp [CardData.GetBaseModel, hb]
    | boolV b => simp [CardData.GetBaseModel, hb]
    | numV n => simp [CardData.GetBaseModel, hb]
    | objV w => simp [CardData.GetBaseModel, hb]
  · intro v hv
    cases hb : c.BaseModel with
    | strV s =>
      cases v with
      | Single t =>
        rw [hb] at hv
        simp only [representsField] at hv
        simp [CardData.GetBaseModel, hb, hv, CardField.firstValue]
      | Multiple m =>
        rw [hb] at hv
        simp [representsField] at hv
    | arrV l =>
      cases v with
      | Single t =>
        rw [hb] at hv
        simp [representsField] at hv
      | Multiple m =>
        rw [hb] at hv
        simp only [representsField] at hv
        cases m with
        | nil => simp [CardData.GetBaseModel, hb, hv, CardField.firstValue]
        | cons t m' => simp [CardData.GetBaseModel, hb, hv, CardField.firstValue]
    | nullV => rw [hb] at hv; cases v <;> simp [representsField] at hv
    | boolV b => rw [hb] at hv; cases v <;> simp [representsField] at hv
    | numV n => rw [hb] at hv; cases v <;> simp [representsField] at hv
    | objV w => rw [hb] at hv; cases v <;> simp [representsField] at hv
  · intro s hs
    simp [CardData.GetLicense, hs]
  · intro s rest hs
    simp [CardData.GetLicense, hs]
  · intro hns hna
    cases hb : c.License with
    | strV s => exact absurd hb (hns s)
    | arrV v =>
      cases v with
      | nil => simp [CardData.GetLicense, hb]
      | cons g l =>
        cases g with
        | strV s => exact absurd hb (hna s l)
        | nullV => simp [CardData.GetLicense, hb]
        | boolV b => simp [CardData.GetLicense, hb]
        | numV n => simp [CardData.GetLicense, hb]
        | arrV w => simp [CardData.GetLicense, hb]
        | objV w => simp [CardData.GetLicense, hb]
    | nullV => simp [CardData.GetLicense, hb]
    | boolV b => simp [CardData.GetLicense, hb]
    | numV n => simp [CardData.GetLicense, hb]
    | objV w => simp [CardData.GetLicense, hb]
  · intro v hv
    cases hb : c.License with
    | strV s =>
      cases v with
      | Single t =>
        rw [hb] at hv
        simp only [representsField] at hv
        simp [CardData.GetLicense, hb, hv, CardField.firstValue]
      | Multiple m =>
        rw [hb] at hv
        simp [representsField] at hv
    | arrV l =>
      cases v with
      | Single t =>
        rw [hb] at hv
        simp [representsField] at hv
      | Multiple m =>
        rw [hb] at hv
        simp only [representsField] at hv
        cases m with
        | nil => simp [CardData.GetLicense, hb, hv, CardField.firstValue]
        | cons t m' => simp [CardData.GetLicense, hb, hv, CardField.firstValue]
    | nullV => rw [hb] at hv; cases v <;> simp [representsField] at hv
    | boolV b => rw [hb] at hv; cases v <;> simp [representsField] at hv
    | numV n => rw [hb] at hv; cases v <;> simp [representsField] at hv
    | objV w => rw [hb] at hv; cases v <;> simp [representsField] at hv

/-- C9 (witness): the accessors evaluated on a concrete card whose
base-model field is a single string and whose license field is a
two-element string list. -/
theorem C9_witness :
    (CardData.mk [] [] (GoVal.strV (("base/model").toList))
      (GoVal.arrV [GoVal.strV (("mit").toList), GoVal.strV (("apache").toList)])
      []).GetBaseModel = ("base/model").toList ∧
    (CardData.mk [] [] (GoVal.strV (("base/model").toList))
      (GoVal.arrV [GoVal.strV (("mit").toList), GoVal.strV (("apache").toList)])
      []).GetLicense = ("mit").toList :=
  ⟨(C9_card_fields_first_wins _).1 _ rfl,
   (C9_card_fields_first_wins _).2.2.2.2.2.1 _ _ rfl⟩

/-- C10: the converted record's `Gated` field is `true` exactly when the
raw `gated` value is the boolean `true`, or is a string that is both
non-empty and not equal to `"false"`; every other raw value (including
absent / null) yields `false`. -/
theorem C10_gated_conversion (am : apiModel) :
    (convertModel am).Gated = true ↔
      am.Gated = GoVal.boolV true ∨
      ∃ s, am.Gated = GoVal.strV s ∧ s ≠ [] ∧ s ≠ ("false").toList := by
  cases hg : am.Gated with
  | boolV b => cases b <;> simp [convertModel, hg]
  | strV s =>
    simp only [convertModel, hg, decide_eq_true_eq]
    constructor
    · intro h
      exact Or.inr ⟨s, rfl, h.1, h.2⟩
    · intro h
      rcases h with h | ⟨t, ht, h1, h2⟩
      · exact absurd h (by simp)
      · cases ht
        exact ⟨h1, h2⟩
  | nullV => simp [convertModel, hg]
  | numV n => simp [convertModel, hg]
  | arrV l => simp [convertModel, hg]
  | objV w => simp [convertModel, hg]

end HFGo
